import Mathlib

/-!
# Verification of the audio-analysis engine

A shallow embedding, in Lean 4, of the deterministic audio-analysis engine
(`AudioProcessor`): tempo detection over an RMS energy envelope, RMS energy,
pitch-class (chroma) extraction with autocorrelation pitch detection,
Krumhansl-Schmuckler key classification, confidence aggregation, and waveform
downsampling.  Samples are modelled as exact rationals; the square-root and
base-2-logarithm library functions of the host are modelled as explicit
function parameters (`f` for sqrt, `g` for log2), so every theorem quantifies
over any implementation of those functions with the stated properties.
Decimal literals of the source (0.1, 0.6, 0.9, 0.95, 0.3, 6.35, ...) are
modelled as the exact rationals they denote.
-/

set_option maxRecDepth 40000

attribute [local semireducible] Rat.add Rat.mul Rat.inv Rat.sub

namespace VirtuosoAudio

/-- JavaScript `Math.round`: round half toward positive infinity. -/
def jsRound (q : ℚ) : ℤ := ⌊q + 1/2⌋

/-- JavaScript `%` on integers: remainder with the sign of the dividend
(unlike Lean's `%` on `Int`, which is Euclidean). -/
def jsRem (a b : ℤ) : ℤ := if a < 0 then -((-a) % b) else a % b

/-- JavaScript `Math.max(...list)` for the lists used by the engine.  On the
empty list JavaScript yields `-Infinity`; the engine only consumes that value
in loops that then perform zero iterations, so the `0` returned here is never
observable and any constant would do. -/
def listMax1 : List ℚ → ℚ
  | [] => 0
  | x :: xs => xs.foldl max x

/-- The properties of `Math.sqrt` (on nonnegative arguments) that the engine's
behaviour depends on: exact at 0 and 1, monotone, positive on positives and
nonnegative on nonnegatives.  Real square root and IEEE-754 `Math.sqrt`
both satisfy all of them. -/
def IsSqrtLike (f : ℚ → ℚ) : Prop :=
  f 0 = 0 ∧ f 1 = 1 ∧ (∀ a b : ℚ, 0 ≤ a → a ≤ b → f a ≤ f b) ∧
    (∀ q : ℚ, 0 < q → 0 < f q) ∧ (∀ q : ℚ, 0 ≤ q → 0 ≤ f q)

/-- A concrete `IsSqrtLike` model used to evaluate the engine at closed inputs.
Every closed evaluation below only ever applies it to `0` or `1`, where
`IsSqrtLike` forces the value, so the choice of model is immaterial there. -/
def sqrtRef (q : ℚ) : ℚ := max q 0

/-- A concrete model of `Math.log2` for closed evaluations.  No claim
constrains the value of log2 (in every closed evaluation below the pitch
branch that would consume it is never taken), so the constant 0 serves. -/
def log2Ref (_ : ℚ) : ℚ := 0

/-- Sum of squares of the samples (the accumulator loop of `rmsEnergy`). -/
def sumSquares (samples : List ℚ) : ℚ := (samples.map (fun x => x * x)).sum

/-- `AudioProcessor.rmsEnergy`: 0 on the empty buffer, else
`sqrt(sum of squares / length)`. -/
def rmsEnergy (f : ℚ → ℚ) (samples : List ℚ) : ℚ :=
  if samples.length = 0 then 0 else f (sumSquares samples / (samples.length : ℚ))

/-- `AudioProcessor.calculateEnergy`, which just delegates to `rmsEnergy`. -/
def calculateEnergy (f : ℚ → ℚ) (samples : List ℚ) : ℚ := rmsEnergy f samples

/-- `Math.floor(sampleRate * 0.1)`: the 100 ms chunk size of `detectTempo`. -/
def tempoChunkSize (sampleRate : ℚ) : ℤ := ⌊sampleRate * (1/10)⌋

/-- `Math.min(100, Math.floor(samples.length / chunkSize))`.  When the chunk
size is not positive, JavaScript divides by zero: for a nonempty buffer
`len / 0 = Infinity` so the minimum is 100, and for the empty buffer
`0 / 0 = NaN` so the loop bound is NaN and zero iterations run. -/
def tempoMaxChunks (len : ℕ) (cs : ℤ) : ℕ :=
  if cs ≤ 0 then (if len = 0 then 0 else 100) else min 100 (len / cs.toNat)

/-- The RMS energy envelope of `detectTempo`: per 100 ms chunk
(`samples.slice(start, start + chunkSize)` is `(drop start).take chunkSize`),
the RMS energy of the chunk. -/
def tempoEnvelope (f : ℚ → ℚ) (samples : List ℚ) (sampleRate : ℚ) : List ℚ :=
  let csn := (tempoChunkSize sampleRate).toNat
  (List.range (tempoMaxChunks samples.length (tempoChunkSize sampleRate))).map
    (fun i => rmsEnergy f ((samples.drop (i * csn)).take csn))

/-- The peak finder of `detectTempo`: indices `1 ≤ i ≤ len - 2` whose envelope
value strictly exceeds both neighbours and the threshold
`0.6 * Math.max(...energies)`; each peak is reported as a time `i * 0.1`. -/
def findPeaks (env : List ℚ) : List ℚ :=
  let threshold := listMax1 env * (3/5)
  (List.range env.length).filterMap fun i =>
    if 0 < i ∧ i + 1 < env.length ∧ threshold < env.getD i 0 ∧
        env.getD (i - 1) 0 < env.getD i 0 ∧ env.getD (i + 1) 0 < env.getD i 0
    then some ((i : ℚ) * (1/10)) else none

/-- The onset (peak) times computed inside `detectTempo`. -/
def onsetTimes (f : ℚ → ℚ) (samples : List ℚ) (sampleRate : ℚ) : List ℚ :=
  findPeaks (tempoEnvelope f samples sampleRate)

/-- `AudioProcessor.detectTempo`: default 120 BPM with fewer than 2 peaks;
otherwise 60 divided by the plain average of the consecutive inter-peak
intervals, clamped into [60, 200]. -/
def detectTempo (f : ℚ → ℚ) (samples : List ℚ) (sampleRate : ℚ) : ℚ :=
  let peaks := onsetTimes f samples sampleRate
  if peaks.length < 2 then 120
  else
    let intervals := List.zipWith (fun a b => b - a) peaks peaks.tail
    let avgInterval := intervals.sum / (intervals.length : ℚ)
    max 60 (min 200 (60 / avgInterval))

/-- One candidate period of `detectPitch`'s autocorrelation loop: sum of
`samples[i] * samples[i + p]` over `i = 0, 4, 8, ...` with `i < len - p`,
divided by the number of terms.  (With zero terms, JavaScript produces NaN,
which then fails the strict comparison against the running best exactly as
the `0/0 = 0` of rational arithmetic does here; the engine also never reaches
that case, because every tried period satisfies `p < len / 2`.) -/
def autocorrAt (samples : List ℚ) (p : ℕ) : ℚ :=
  let count := (samples.length - p + 3) / 4
  let corr := ∑ k ∈ Finset.range count, samples.getD (4 * k) 0 * samples.getD (4 * k + p) 0
  corr / (count : ℚ)

/-- The periods tried by `detectPitch`: `minP, minP + 2, ...` strictly below
the loop bound; `U` is the largest integer strictly below the rational bound
`min(maxPeriod, len / 2)`. -/
def pitchPeriods (minP U : ℤ) : List ℤ :=
  if minP ≤ U then (List.range ((U - minP).toNat / 2 + 1)).map (fun j => minP + 2 * (j : ℤ)) else []

/-- `AudioProcessor.detectPitch`: best autocorrelation period in the 80-800 Hz
range scanned in steps of 2; returns `sampleRate / bestPeriod`, or 0 when no
period beat the initial best correlation of 0. -/
def detectPitch (samples : List ℚ) (sampleRate : ℚ) : ℚ :=
  let minP := ⌊sampleRate / 800⌋
  let maxP := ⌊sampleRate / 80⌋
  let bound : ℚ := min (maxP : ℚ) ((samples.length : ℚ) / 2)
  let best := (pitchPeriods minP (⌈bound⌉ - 1)).foldl
    (fun (st : ℚ × ℤ) p =>
      let c := autocorrAt samples p.toNat
      if st.1 < c then (c, p) else st) (0, 0)
  if 0 < best.2 then sampleRate / (best.2 : ℚ) else 0

/-- `chroma[chromaClass] += 1` on a 12-element list. -/
def chromaAdd (l : List ℚ) (k : ℕ) : List ℚ := l.set k (l.getD k 0 + 1)

/-- `AudioProcessor.calculateChroma`: over at most 20 chunks of 4096 samples,
detect a pitch per chunk, map pitches in (80, 2000) Hz to a pitch class via
`round(12 * log2(pitch / 440) + 69) mod 12` (JavaScript remainder, negative
results discarded), count hits per class, and normalize by the total when it
is positive. -/
def calculateChroma (g : ℚ → ℚ) (samples : List ℚ) (sampleRate : ℚ) : List ℚ :=
  let numChunks := min 20 (samples.length / 4096)
  let counts := (List.range numChunks).foldl
    (fun chroma i =>
      let chunk := (samples.drop (i * 4096)).take 4096
      let pitch := detectPitch chunk sampleRate
      if 80 < pitch ∧ pitch < 2000 then
        let midiNote := 12 * g (pitch / 440) + 69
        let chromaClass := jsRem (jsRound midiNote) 12
        if 0 ≤ chromaClass then chromaAdd chroma chromaClass.toNat else chroma
      else chroma)
    (List.replicate 12 0)
  let s := counts.sum
  if 0 < s then counts.map (fun x => x / s) else counts

/-- Key mode, `'major' | 'minor'`. -/
inductive Mode where
  | major
  | minor
deriving DecidableEq, Repr

/-- The `keys` array of `detectKey` (written as one literal array in the
source). -/
def keyNames : List String :=
  ["C", "C#", "D", "D#", "E", "F"] ++ ["F#", "G", "G#", "A", "A#", "B"]

/-- Krumhansl-Schmuckler major profile (exact decimals of the source). -/
def majorProfile : List ℚ :=
  [635/100, 223/100, 348/100, 233/100, 438/100, 409/100, 252/100, 519/100, 239/100, 366/100,
    229/100, 288/100]

/-- Krumhansl-Schmuckler minor profile (exact decimals of the source). -/
def minorProfile : List ℚ :=
  [633/100, 268/100, 352/100, 538/100, 260/100, 353/100, 254/100, 475/100, 398/100, 269/100,
    334/100, 317/100]

/-- The profile used for a mode. -/
def profileOf : Mode → List ℚ
  | .major => majorProfile
  | .minor => minorProfile

/-- `AudioProcessor.correlate`: `sum over i < 12 of chroma[i] * profile[(i + shift) % 12]`. -/
def correlate (chroma profile : List ℚ) (shift : ℕ) : ℚ :=
  ∑ i ∈ Finset.range 12, chroma.getD i 0 * profile.getD ((i + shift) % 12) 0

/-- The running state of `detectKey`'s scan: best key index (`bestKey = shift`
with `key = keys[shift]`), best mode, best score, second-best score. -/
structure KeySt where
  bestKey : ℕ
  bestMode : Mode
  bestScore : ℚ
  secondBest : ℚ
deriving DecidableEq, Repr

/-- Initial scan state of `detectKey`: key `'C'`, mode major, scores -1. -/
def scanInit : KeySt := ⟨0, Mode.major, -1, -1⟩

/-- One candidate update of `detectKey`'s scan: a strictly larger score
displaces the best (the old best becomes second best); otherwise a score
strictly above the second best replaces only the second best. -/
def scanStep (st : KeySt) (cand : (ℕ × Mode) × ℚ) : KeySt :=
  if st.bestScore < cand.2 then ⟨cand.1.1, cand.1.2, cand.2, st.bestScore⟩
  else if st.secondBest < cand.2 then { st with secondBest := cand.2 }
  else st

/-- The candidates of `detectKey` in its scan order: for each shift 0..11,
first the major-profile score, then the minor-profile score. -/
def cands (chroma : List ℚ) : List ((ℕ × Mode) × ℚ) :=
  (List.range 12).flatMap fun s =>
    [((s, Mode.major), correlate chroma majorProfile s),
     ((s, Mode.minor), correlate chroma minorProfile s)]

/-- The full scan of `detectKey` over all 24 shift/mode candidates. -/
def detectKeyScan (chroma : List ℚ) : KeySt := (cands chroma).foldl scanStep scanInit

/-- The `{key, mode, confidence}` record returned by `detectKey`. -/
structure KeyResult where
  key : String
  mode : Mode
  confidence : ℚ
deriving DecidableEq, Repr

/-- The confidence formula of `detectKey`:
`bestScore > 0 ? min(0.95, max(0.3, (bestScore - secondBest) / bestScore)) : 0.3`. -/
def keyConfidence (st : KeySt) : ℚ :=
  if 0 < st.bestScore then
    min (19/20) (max (3/10) ((st.bestScore - st.secondBest) / st.bestScore))
  else 3/10

/-- `detectKey`'s classification of a given chroma vector. -/
def detectKeyFromChroma (chroma : List ℚ) : KeyResult :=
  let st := detectKeyScan chroma
  { key := keyNames.getD st.bestKey "C", mode := st.bestMode, confidence := keyConfidence st }

/-- `AudioProcessor.detectKey`: chroma extraction followed by classification. -/
def detectKey (g : ℚ → ℚ) (samples : List ℚ) (sampleRate : ℚ) : KeyResult :=
  detectKeyFromChroma (calculateChroma g samples sampleRate)

/-- The record assembled by `analyzeAudio` (`AudioAnalysis`): rounded tempo,
energy on the 0-100 scale (`Math.round(energy * 100)`), confidence rounded to
two decimals, rounded duration. -/
structure AnalysisResult where
  key : String
  mode : Mode
  tempo : ℤ
  energy : ℤ
  confidence : ℚ
  duration : ℤ
deriving DecidableEq, Repr

/-- `AudioProcessor.analyzeAudio`: runs tempo, energy and key detection on the
buffer and aggregates the confidence
`(tempoConfidence + energyConfidence + keyConfidence) / 3` with
`tempoConfidence = 0.9` iff the raw tempo lies in [60, 200] (else 0.6) and
`energyConfidence = 0.95` iff the raw energy is positive (else 0.3). -/
def analyzeAudio (f g : ℚ → ℚ) (samples : List ℚ) (sampleRate : ℚ) (duration : ℚ) :
    AnalysisResult :=
  let tempo := detectTempo f samples sampleRate
  let energy := calculateEnergy f samples
  let keyResult := detectKey g samples sampleRate
  let tempoConfidence : ℚ := if 60 ≤ tempo ∧ tempo ≤ 200 then 9/10 else 6/10
  let energyConfidence : ℚ := if 0 < energy then 19/20 else 3/10
  let confidence := (tempoConfidence + energyConfidence + keyResult.confidence) / 3
  { key := keyResult.key
    mode := keyResult.mode
    tempo := jsRound tempo
    energy := jsRound (energy * 100)
    confidence := (jsRound (confidence * 100) : ℚ) / 100
    duration := jsRound duration }

/-- `AudioProcessor.generateWaveform`.  `blockSize = Math.floor(len / 100)`;
the source loop `for (i = 0; i < len; i += blockSize)` never advances when
`blockSize = 0` and the buffer is nonempty, so the function does not
terminate there: that case is modelled as `none`.  Otherwise the loop emits
`Math.max(...block.map(Math.abs))` per block and the result is truncated to
the first 100 peaks. -/
def generateWaveform (samples : List ℚ) (duration : ℚ) : Option (List ℚ × ℚ) :=
  let targetPeaks := 100
  let blockSize := samples.length / targetPeaks
  if blockSize = 0 ∧ samples.length ≠ 0 then none
  else
    let numBlocks := (samples.length + blockSize - 1) / blockSize
    let peaks := (List.range numBlocks).map fun i =>
      listMax1 (((samples.drop (i * blockSize)).take blockSize).map (fun x => |x|))
    some (peaks.take targetPeaks, duration)

/-- Modelled from the spec: the tempo rule the specification prescribes in
place of `detectTempo`'s plain average — sort the inter-onset intervals,
discard the lowest and highest quartiles, and return `60 / mean(trimmed)`
clamped into [60, 200], with the same 120 BPM fallback below 2 onsets.  The
onset detection itself is shared with the implementation. -/
def trimmedTempoSpec (f : ℚ → ℚ) (samples : List ℚ) (sampleRate : ℚ) : ℚ :=
  let peaks := onsetTimes f samples sampleRate
  if peaks.length < 2 then 120
  else
    let intervals := List.zipWith (fun a b => b - a) peaks peaks.tail
    let sorted := intervals.insertionSort (· ≤ ·)
    let q := intervals.length / 4
    let trimmed := (sorted.drop q).take (sorted.length - 2 * q)
    let avgInterval := trimmed.sum / (trimmed.length : ℚ)
    max 60 (min 200 (60 / avgInterval))

/-- Index reshuffle of a 12-bin vector: bin `i` of the result reads bin
`(i + k) % 12` of the input (the reindexing the classifier's profile lookup
`profile[(i + shift) % 12]` performs).  This is the internal helper behind
`rotateChromaUp`: shifting the reading index up by `k` moves the content
down by `k` semitones. -/
def shiftBins (k : ℕ) (chroma : List ℚ) : List ℚ :=
  (List.range 12).map fun i => chroma.getD ((i + k) % 12) 0

/-- Upward rotation of a 12-bin chroma vector by `n` semitones (`n ≤ 12`),
read exactly as the claim's "rotated upward by n semitones": the content of
bin `j` moves to bin `(j + n) % 12`, i.e. bin `i` of the result reads bin
`(i + (12 - n)) % 12` of the input (`rotateChromaUp_spec` checks this). -/
def rotateChromaUp (n : ℕ) (chroma : List ℚ) : List ℚ := shiftBins (12 - n) chroma

/-- Concrete buffer for the tempo claims: at 10 Hz sample rate the envelope
chunks are single samples, and this 0/1 pattern has energy peaks at chunk
indices 1, 3, 5, 7 and 16, hence inter-onset intervals 0.2, 0.2, 0.2, 0.9 s. -/
def cex5buf : List ℚ := [0, 1, 0, 1, 0, 1, 0, 1, 0, 0, 0, 0, 0, 0, 0, 0, 1, 0]

/-- Concrete chroma vector (nonnegative, sums to 1) whose correlation scores
tie exactly — value 205047/36400 — between the minor profile at shift 0 and
the major profile at shift 9, with every other candidate strictly below. -/
def c10chroma : List ℚ := [97/364, 0, 0, 267/364, 0, 0, 0, 0, 0, 0, 0, 0]

/-- Concrete chroma vector concentrated on pitch class 0, whose best
candidate (major profile at shift 0, score 6.35) is a unique strict maximum. -/
def chromaE0 : List ℚ := 1 :: List.replicate 11 0

/-- The running maximum with initial value `d`: the value `detectKey`'s scan
keeps in `bestScore` after processing a list of candidate scores. -/
def listMaxD (d : ℚ) (l : List ℚ) : ℚ := l.foldl max d

/-- The second-largest score of a list, seeded like the scan with -1: the
maximum after erasing one copy of the maximum.  This is the value the scan
keeps in `secondBestScore`. -/
def secondMaxD (l : List ℚ) : ℚ := listMaxD (-1) (l.erase (listMaxD (-1) l))

/-! ## Stage evaluations on degenerate buffers -/

theorem rmsEnergy_nil (f : ℚ → ℚ) : rmsEnergy f [] = 0 := rfl

theorem detectTempo_nil (f : ℚ → ℚ) : detectTempo f [] 44100 = 120 := rfl

theorem calculateChroma_nil (g : ℚ → ℚ) : calculateChroma g [] 44100 = List.replicate 12 0 := rfl

theorem detectKeyFromChroma_zeroChroma :
    detectKeyFromChroma (List.replicate 12 0) = ⟨"C", Mode.major, 3/10⟩ := by decide

/-! ## Rounding and range lemmas -/

theorem jsRound_nonneg {q : ℚ} (h : 0 ≤ q) : 0 ≤ jsRound q :=
  Int.le_floor.mpr (by push_cast; linarith)

theorem jsRound_ge {q : ℚ} {B : ℤ} (h : (B : ℚ) ≤ q + 1/2) : B ≤ jsRound q :=
  Int.le_floor.mpr h

theorem jsRound_le {q : ℚ} {B : ℤ} (h : q + 1/2 < (B : ℚ) + 1) : jsRound q ≤ B := by
  have hlt : jsRound q < B + 1 := Int.floor_lt.mpr (by push_cast; linarith)
  omega

theorem isSqrtLike_sqrtRef : IsSqrtLike sqrtRef := by
  refine ⟨by decide, by decide, ?_, ?_, ?_⟩
  · intro a b _ hab
    exact max_le_max hab le_rfl
  · intro q hq
    exact lt_of_lt_of_le hq (le_max_left q 0)
  · intro q _
    exact le_max_right q 0

theorem detectTempo_range (f : ℚ → ℚ) (samples : List ℚ) (sampleRate : ℚ) :
    60 ≤ detectTempo f samples sampleRate ∧ detectTempo f samples sampleRate ≤ 200 := by
  unfold detectTempo
  dsimp only
  by_cases h : (onsetTimes f samples sampleRate).length < 2
  · rw [if_pos h]
    norm_num
  · rw [if_neg h]
    exact ⟨le_max_left _ _, max_le (by norm_num) (min_le_left _ _)⟩

theorem keyConfidence_bounds (st : KeySt) :
    3/10 ≤ keyConfidence st ∧ keyConfidence st ≤ 19/20 := by
  unfold keyConfidence
  split
  · exact ⟨le_min (by norm_num) (le_max_left _ _), min_le_left _ _⟩
  · norm_num

/-! ## Field projections of the assembled result -/

theorem analyzeAudio_tempo (f g : ℚ → ℚ) (samples : List ℚ) (sampleRate duration : ℚ) :
    (analyzeAudio f g samples sampleRate duration).tempo =
      jsRound (detectTempo f samples sampleRate) := rfl

theorem analyzeAudio_energy (f g : ℚ → ℚ) (samples : List ℚ) (sampleRate duration : ℚ) :
    (analyzeAudio f g samples sampleRate duration).energy =
      jsRound (calculateEnergy f samples * 100) := rfl

theorem analyzeAudio_key (f g : ℚ → ℚ) (samples : List ℚ) (sampleRate duration : ℚ) :
    (analyzeAudio f g samples sampleRate duration).key =
      (detectKey g samples sampleRate).key := rfl

theorem analyzeAudio_mode (f g : ℚ → ℚ) (samples : List ℚ) (sampleRate duration : ℚ) :
    (analyzeAudio f g samples sampleRate duration).mode =
      (detectKey g samples sampleRate).mode := rfl

theorem analyzeAudio_confidence (f g : ℚ → ℚ) (samples : List ℚ) (sampleRate duration : ℚ) :
    (analyzeAudio f g samples sampleRate duration).confidence =
      (jsRound ((((if 60 ≤ detectTempo f samples sampleRate ∧
              detectTempo f samples sampleRate ≤ 200 then (9:ℚ)/10 else 6/10) +
            (if 0 < calculateEnergy f samples then (19:ℚ)/20 else 3/10) +
            (detectKey g samples sampleRate).confidence) / 3) * 100) : ℚ) / 100 := rfl

theorem detectKey_confidence_eq (g : ℚ → ℚ) (samples : List ℚ) (sampleRate : ℚ) :
    (detectKey g samples sampleRate).confidence =
      keyConfidence (detectKeyScan (calculateChroma g samples sampleRate)) := rfl

/-! ## Energy bounds -/

theorem sumSquares_nonneg (samples : List ℚ) : 0 ≤ sumSquares samples :=
  List.sum_nonneg (by
    intro x hx
    obtain ⟨y, _, rfl⟩ := List.mem_map.mp hx
    exact mul_self_nonneg y)

theorem sumSquares_le_length (samples : List ℚ)
    (hb : ∀ x ∈ samples, -1 ≤ x ∧ x ≤ 1) : sumSquares samples ≤ (samples.length : ℚ) := by
  have h := List.sum_le_card_nsmul (samples.map (fun x => x * x)) 1 ?_
  · simpa [sumSquares, nsmul_eq_mul] using h
  · intro x hx
    obtain ⟨y, hy, rfl⟩ := List.mem_map.mp hx
    obtain ⟨h1, h2⟩ := hb y hy
    nlinarith

theorem rmsEnergy_nonneg {f : ℚ → ℚ} (hf : IsSqrtLike f) (samples : List ℚ) :
    0 ≤ rmsEnergy f samples := by
  unfold rmsEnergy
  split
  · exact le_rfl
  · exact hf.2.2.2.2 _ (div_nonneg (sumSquares_nonneg samples) (by positivity))

theorem rmsEnergy_le_one {f : ℚ → ℚ} (hf : IsSqrtLike f) (samples : List ℚ)
    (hb : ∀ x ∈ samples, -1 ≤ x ∧ x ≤ 1) : rmsEnergy f samples ≤ 1 := by
  unfold rmsEnergy
  split
  · norm_num
  · rename_i hne
    have hlen : (0:ℚ) < (samples.length : ℚ) := by
      have : samples.length ≠ 0 := hne
      positivity
    have harg : sumSquares samples / (samples.length : ℚ) ≤ 1 :=
      (div_le_one hlen).mpr (sumSquares_le_length samples hb)
    have h0 : 0 ≤ sumSquares samples / (samples.length : ℚ) :=
      div_nonneg (sumSquares_nonneg samples) hlen.le
    calc f (sumSquares samples / (samples.length : ℚ)) ≤ f 1 := hf.2.2.1 _ _ h0 harg
    _ = 1 := hf.2.1

/-! ## Silent-buffer evaluations -/

theorem getD_replicate_zero (m k : ℕ) : (List.replicate m (0:ℚ)).getD k 0 = 0 := by
  rcases lt_or_le k m with h | h
  · rw [List.getD_eq_getElem _ _ (by simpa using h)]
    exact List.getElem_replicate _ _
  · exact List.getD_eq_default _ _ (by simpa using h)

theorem sumSquares_replicate_zero (m : ℕ) : sumSquares (List.replicate m 0) = 0 := by
  unfold sumSquares
  refine List.sum_eq_zero ?_
  intro x hx
  obtain ⟨y, hy, rfl⟩ := List.mem_map.mp hx
  have : y = 0 := List.eq_of_mem_replicate hy
  simp [this]

theorem rmsEnergy_replicate_zero {f : ℚ → ℚ} (hf : IsSqrtLike f) (m : ℕ) :
    rmsEnergy f (List.replicate m 0) = 0 := by
  unfold rmsEnergy
  split
  · rfl
  · rw [sumSquares_replicate_zero, zero_div]
    exact hf.1

theorem findPeaks_replicate_zero (m : ℕ) : findPeaks (List.replicate m 0) = [] := by
  unfold findPeaks
  refine List.filterMap_eq_nil_iff.mpr ?_
  intro i _
  rw [if_neg]
  intro hcond
  have h1 := hcond.2.2.2.1
  rw [getD_replicate_zero, getD_replicate_zero] at h1
  exact lt_irrefl 0 h1

theorem tempoEnvelope_replicate_zero {f : ℚ → ℚ} (hf : IsSqrtLike f) (n : ℕ) (sr : ℚ) :
    tempoEnvelope f (List.replicate n 0) sr =
      List.replicate (tempoMaxChunks n (tempoChunkSize sr)) 0 := by
  unfold tempoEnvelope
  refine List.eq_replicate_iff.mpr ⟨by simp, ?_⟩
  intro b hb
  obtain ⟨i, _, rfl⟩ := List.mem_map.mp hb
  rw [List.drop_replicate, List.take_replicate]
  exact rmsEnergy_replicate_zero hf _

theorem detectTempo_replicate_zero {f : ℚ → ℚ} (hf : IsSqrtLike f) (n : ℕ) (sr : ℚ) :
    detectTempo f (List.replicate n 0) sr = 120 := by
  unfold detectTempo
  dsimp only
  rw [show onsetTimes f (List.replicate n 0) sr = [] from by
    unfold onsetTimes
    rw [tempoEnvelope_replicate_zero hf, findPeaks_replicate_zero]]
  rfl

theorem autocorrAt_replicate_zero (m p : ℕ) : autocorrAt (List.replicate m 0) p = 0 := by
  unfold autocorrAt
  dsimp only
  rw [Finset.sum_eq_zero fun k _ => by rw [getD_replicate_zero, zero_mul]]
  exact zero_div _

theorem detectPitch_replicate_zero (m : ℕ) (sr : ℚ) :
    detectPitch (List.replicate m 0) sr = 0 := by
  unfold detectPitch
  dsimp only
  have hfold : ∀ (l : List ℤ),
      l.foldl (fun (st : ℚ × ℤ) p =>
        let c := autocorrAt (List.replicate m 0) p.toNat
        if st.1 < c then (c, p) else st) (0, 0) = (0, 0) := by
    intro l
    induction l with
    | nil => rfl
    | cons p t ih =>
      rw [List.foldl_cons]
      have hstep : (let c := autocorrAt (List.replicate m 0) p.toNat
          if ((0:ℚ), (0:ℤ)).1 < c then (c, p) else ((0:ℚ), (0:ℤ))) = ((0:ℚ), (0:ℤ)) := by
        rw [show autocorrAt (List.replicate m 0) p.toNat = 0 from
          autocorrAt_replicate_zero m p.toNat]
        norm_num
      rw [hstep, ih]
  rw [hfold]
  norm_num

theorem foldl_fixed {α β : Type} (step : α → β → α) (l : List β) (a : α)
    (h : ∀ b ∈ l, step a b = a) : l.foldl step a = a := by
  induction l with
  | nil => rfl
  | cons b t ih =>
    rw [List.foldl_cons, h b (List.mem_cons_self b t)]
    exact ih fun c hc => h c (List.mem_cons_of_mem b hc)

theorem calculateChroma_replicate_zero (g : ℚ → ℚ) (n : ℕ) (sr : ℚ) :
    calculateChroma g (List.replicate n 0) sr = List.replicate 12 0 := by
  unfold calculateChroma
  dsimp only
  rw [foldl_fixed _ _ _ ?_]
  · rw [if_neg]
    rw [List.sum_replicate]
    norm_num
  · intro i _
    rw [List.drop_replicate, List.take_replicate]
    rw [if_neg]
    rw [detectPitch_replicate_zero]
    norm_num

/-! ## Claims -/

/-- C1, amended.  `analyzeAudio` performs no validation of the sample buffer:
on the empty buffer it does not produce any error but deterministically
returns the fallback record — key C major, tempo 120 BPM, energy 0, overall
confidence 0.5 (= (0.9 + 0.3 + 0.3)/3) — for every sqrt model, log2 model and
duration. -/
theorem C1_empty_buffer_returns_default (f g : ℚ → ℚ) (d : ℚ) :
    analyzeAudio f g [] 44100 d =
      { key := "C", mode := Mode.major, tempo := 120, energy := 0, confidence := 1/2,
        duration := jsRound d } := by
  have ht : detectTempo f [] 44100 = 120 := rfl
  have he : calculateEnergy f [] = 0 := rfl
  have hc : calculateChroma g [] 44100 = List.replicate 12 0 := rfl
  unfold analyzeAudio detectKey
  rw [ht, he, hc, detectKeyFromChroma_zeroChroma]
  simp only [AnalysisResult.mk.injEq]
  decide

/-- C1, counterexample to the claim as stated: on the buffer of length 0 the
code does not return an `InvalidInput` error — `analyzeAudio` is total and
produces this concrete default/fallback `AnalysisResult`. -/
theorem C1_cex_empty_buffer_yields_result :
    analyzeAudio sqrtRef log2Ref [] 44100 0 =
      { key := "C", mode := Mode.major, tempo := 120, energy := 0, confidence := 1/2,
        duration := 0 } := by decide

/-- C2, counterexample to the claim as stated: the assembled `energy` field is
on a 0-100 scale (`Math.round(rms * 100)`), not in [0, 1] — the constant
buffer `[1]` has RMS 1 and its result stores energy 100. -/
theorem C2_cex_energy_is_percent_scale :
    (analyzeAudio sqrtRef log2Ref [1] 44100 1).energy = 100 ∧
      ¬ ((analyzeAudio sqrtRef log2Ref [1] 44100 1).energy ≤ 1) := by decide

/-- C3 (code bug): on a nonempty buffer with fewer than 100 samples,
`generateWaveform` computes `blockSize = floor(len / 100) = 0` and its loop
`for (i = 0; i < len; i += blockSize)` never advances, so the function does
not terminate (modelled as `none`) instead of returning one peak per sample
as the claim requires. -/
theorem C3_short_buffer_waveform_diverges :
    generateWaveform (List.replicate 50 1) 5 = none := by decide

/-- C7: the analysis pipeline is deterministic — it is a pure function of the
sample buffer, sample rate and duration (together with the fixed sqrt/log2
models of the host math library), so two runs on bit-identical input yield
bit-identical results.  The embedding itself witnesses that no state or
randomness enters the computation. -/
theorem C7_analyze_deterministic (f g : ℚ → ℚ) (s t : List ℚ) (sampleRate duration : ℚ)
    (h : s = t) :
    analyzeAudio f g s sampleRate duration = analyzeAudio f g t sampleRate duration := by
  rw [h]

/-- C7, witness: the determinism theorem applied at a concrete buffer. -/
theorem C7_analyze_deterministic_witness :
    analyzeAudio sqrtRef log2Ref [1, 0] 44100 2 = analyzeAudio sqrtRef log2Ref [1, 0] 44100 2 :=
  C7_analyze_deterministic sqrtRef log2Ref [1, 0] [1, 0] 44100 2 rfl

/-- C5, counterexample to the claim as stated: `detectTempo` does not sort or
quartile-trim the inter-onset intervals.  On `cex5buf` at 10 Hz the onsets are
at 0.1, 0.3, 0.5, 0.7, 1.6 s (intervals 0.2, 0.2, 0.2, 0.9): the code returns
`60 / mean(all intervals) = 160` BPM, while the trimmed-mean rule prescribed
by the claim yields `clamp(60 / mean(0.2, 0.2)) = 200` BPM. -/
theorem C5_cex_untrimmed_mean :
    detectTempo sqrtRef cex5buf 10 = 160 ∧ trimmedTempoSpec sqrtRef cex5buf 10 = 200 := by
  decide

/-- C10, counterexample to the claim as stated: on `c10chroma` the best
minor-profile score (shift 0) and the best major-profile score (shift 9) tie
exactly, and the classifier returns mode minor — the minor candidate is
scanned first (rotation 0 before rotation 9), so an exact major/minor tie
does not always yield major. -/
theorem C10_cex_tie_yields_minor :
    correlate c10chroma minorProfile 0 = correlate c10chroma majorProfile 9 ∧
      (∀ s < 12, correlate c10chroma majorProfile s ≤ correlate c10chroma majorProfile 9) ∧
      (∀ s < 12, correlate c10chroma minorProfile s ≤ correlate c10chroma minorProfile 0) ∧
      (detectKeyFromChroma c10chroma).mode = Mode.minor := by decide

/-- C8: for every non-empty buffer the overall confidence is at least 0.5:
`detectTempo` always lands in [60, 200] (so the 0.6 tempo-confidence branch is
unreachable and the tempo term is 0.9), while the energy and key
sub-confidences are floored at 0.3. -/
theorem C8_confidence_floor (f g : ℚ → ℚ) (samples : List ℚ) (sampleRate duration : ℚ)
    (hne : samples ≠ []) :
    (60 ≤ detectTempo f samples sampleRate ∧ detectTempo f samples sampleRate ≤ 200) ∧
      1/2 ≤ (analyzeAudio f g samples sampleRate duration).confidence := by
  obtain ⟨h60, h200⟩ := detectTempo_range f samples sampleRate
  refine ⟨⟨h60, h200⟩, ?_⟩
  rw [analyzeAudio_confidence, if_pos ⟨h60, h200⟩, detectKey_confidence_eq]
  have hkc := (keyConfidence_bounds (detectKeyScan (calculateChroma g samples sampleRate))).1
  have heC : (3:ℚ)/10 ≤ (if 0 < calculateEnergy f samples then (19:ℚ)/20 else 3/10) := by
    split <;> norm_num
  have hj : (50:ℤ) ≤ jsRound ((((9:ℚ)/10 +
      (if 0 < calculateEnergy f samples then (19:ℚ)/20 else 3/10) +
      keyConfidence (detectKeyScan (calculateChroma g samples sampleRate))) / 3) * 100) := by
    refine jsRound_ge ?_
    push_cast
    linarith
  have hj' : ((50:ℤ):ℚ) ≤ (jsRound ((((9:ℚ)/10 +
      (if 0 < calculateEnergy f samples then (19:ℚ)/20 else 3/10) +
      keyConfidence (detectKeyScan (calculateChroma g samples sampleRate))) / 3) * 100) : ℚ) := by
    exact_mod_cast hj
  push_cast at hj'
  linarith

/-- C8, witness: the confidence floor instantiated at the buffer `[1]`. -/
theorem C8_confidence_floor_witness :
    (60 ≤ detectTempo sqrtRef [1] 44100 ∧ detectTempo sqrtRef [1] 44100 ≤ 200) ∧
      1/2 ≤ (analyzeAudio sqrtRef log2Ref [1] 44100 1).confidence :=
  C8_confidence_floor sqrtRef log2Ref [1] 44100 1 (by decide)

/-- C2, amended.  For every non-empty buffer of unit-normalized samples with
positive sample rate, the assembled record satisfies `tempo ∈ [60, 200]` and
`confidence ∈ [0, 1]` as claimed, but `energy ∈ [0, 100]`: the code stores
`Math.round(rms * 100)`, a 0-100 scale, not a [0, 1] scale. -/
theorem C2_amended_ranges (f g : ℚ → ℚ) (samples : List ℚ) (sampleRate duration : ℚ)
    (hf : IsSqrtLike f) (hne : samples ≠ []) (hb : ∀ x ∈ samples, -1 ≤ x ∧ x ≤ 1)
    (hsr : 0 < sampleRate) :
    (60 ≤ (analyzeAudio f g samples sampleRate duration).tempo ∧
        (analyzeAudio f g samples sampleRate duration).tempo ≤ 200) ∧
      (0 ≤ (analyzeAudio f g samples sampleRate duration).confidence ∧
        (analyzeAudio f g samples sampleRate duration).confidence ≤ 1) ∧
      (0 ≤ (analyzeAudio f g samples sampleRate duration).energy ∧
        (analyzeAudio f g samples sampleRate duration).energy ≤ 100) := by
  obtain ⟨h60, h200⟩ := detectTempo_range f samples sampleRate
  refine ⟨⟨?_, ?_⟩, ⟨?_, ?_⟩, ⟨?_, ?_⟩⟩
  · rw [analyzeAudio_tempo]
    exact jsRound_ge (by push_cast; linarith)
  · rw [analyzeAudio_tempo]
    exact jsRound_le (by push_cast; linarith)
  · rw [analyzeAudio_confidence, detectKey_confidence_eq]
    have hkc := (keyConfidence_bounds (detectKeyScan (calculateChroma g samples sampleRate))).1
    have htC : (6:ℚ)/10 ≤ (if 60 ≤ detectTempo f samples sampleRate ∧
        detectTempo f samples sampleRate ≤ 200 then (9:ℚ)/10 else 6/10) := by
      split <;> norm_num
    have heC : (3:ℚ)/10 ≤ (if 0 < calculateEnergy f samples then (19:ℚ)/20 else 3/10) := by
      split <;> norm_num
    have hj : (0:ℤ) ≤ jsRound ((((if 60 ≤ detectTempo f samples sampleRate ∧
        detectTempo f samples sampleRate ≤ 200 then (9:ℚ)/10 else 6/10) +
        (if 0 < calculateEnergy f samples then (19:ℚ)/20 else 3/10) +
        keyConfidence (detectKeyScan (calculateChroma g samples sampleRate))) / 3) * 100) :=
      jsRound_nonneg (by linarith)
    have hj' : ((0:ℤ):ℚ) ≤ (jsRound ((((if 60 ≤ detectTempo f samples sampleRate ∧
        detectTempo f samples sampleRate ≤ 200 then (9:ℚ)/10 else 6/10) +
        (if 0 < calculateEnergy f samples then (19:ℚ)/20 else 3/10) +
        keyConfidence (detectKeyScan (calculateChroma g samples sampleRate))) / 3) * 100) : ℚ) := by
      exact_mod_cast hj
    push_cast at hj'
    linarith
  · rw [analyzeAudio_confidence, detectKey_confidence_eq]
    have hkc := (keyConfidence_bounds (detectKeyScan (calculateChroma g samples sampleRate))).2
    have htC : (if 60 ≤ detectTempo f samples sampleRate ∧
        detectTempo f samples sampleRate ≤ 200 then (9:ℚ)/10 else 6/10) ≤ 9/10 := by
      split <;> norm_num
    have heC : (if 0 < calculateEnergy f samples then (19:ℚ)/20 else 3/10) ≤ 19/20 := by
      split <;> norm_num
    have hj : jsRound ((((if 60 ≤ detectTempo f samples sampleRate ∧
        detectTempo f samples sampleRate ≤ 200 then (9:ℚ)/10 else 6/10) +
        (if 0 < calculateEnergy f samples then (19:ℚ)/20 else 3/10) +
        keyConfidence (detectKeyScan (calculateChroma g samples sampleRate))) / 3) * 100) ≤
        (100:ℤ) :=
      jsRound_le (by push_cast; linarith)
    have hj' : (jsRound ((((if 60 ≤ detectTempo f samples sampleRate ∧
        detectTempo f samples sampleRate ≤ 200 then (9:ℚ)/10 else 6/10) +
        (if 0 < calculateEnergy f samples then (19:ℚ)/20 else 3/10) +
        keyConfidence (detectKeyScan (calculateChroma g samples sampleRate))) / 3) * 100) : ℚ) ≤
        ((100:ℤ):ℚ) := by
      exact_mod_cast hj
    push_cast at hj'
    linarith
  · rw [analyzeAudio_energy]
    exact jsRound_nonneg (mul_nonneg (rmsEnergy_nonneg hf samples) (by norm_num))
  · rw [analyzeAudio_energy]
    have h1 := rmsEnergy_le_one hf samples hb
    exact jsRound_le (by push_cast; unfold calculateEnergy; linarith)

/-- C2, witness: the amended range theorem instantiated at the buffer `[1]`
(whose energy field is exactly 100, showing the 0-100 bound is tight). -/
theorem C2_amended_ranges_witness :
    (60 ≤ (analyzeAudio sqrtRef log2Ref [1] 44100 1).tempo ∧
        (analyzeAudio sqrtRef log2Ref [1] 44100 1).tempo ≤ 200) ∧
      (0 ≤ (analyzeAudio sqrtRef log2Ref [1] 44100 1).confidence ∧
        (analyzeAudio sqrtRef log2Ref [1] 44100 1).confidence ≤ 1) ∧
      (0 ≤ (analyzeAudio sqrtRef log2Ref [1] 44100 1).energy ∧
        (analyzeAudio sqrtRef log2Ref [1] 44100 1).energy ≤ 100) :=
  C2_amended_ranges sqrtRef log2Ref [1] 44100 1 isSqrtLike_sqrtRef (by decide) (by decide)
    (by decide)

/-- C4, counterexample to the claim as stated: on the silent one-sample buffer
the overall confidence is 0.5 — the tempo sub-confidence stays 0.9 because
the 120 BPM fallback lies in [60, 200] — which exceeds the claimed
`0.3 + ε` bound even for the generous ε = 0.1. -/
theorem C4_cex_silent_confidence_is_half :
    (analyzeAudio sqrtRef log2Ref (List.replicate 1 0) 44100 0).confidence = 1/2 ∧
      ¬ ((analyzeAudio sqrtRef log2Ref (List.replicate 1 0) 44100 0).confidence ≤ 3/10 + 1/10) := by
  decide

theorem keyConfidence_zeroChroma :
    keyConfidence (detectKeyScan (List.replicate 12 0)) = 3/10 := by decide

/-- C4, amended.  For every all-zero buffer of length at least 1 at sample
rate 44100: energy is 0, the chroma vector is all-zero, the key defaults to
C major, and the overall confidence is exactly 0.5 — not at most 0.3 + ε.
The tempo sub-confidence stays 0.9 because the 120 BPM fallback lies inside
[60, 200]; the energy and key sub-confidences are floored at 0.3. -/
theorem C4_amended_silent_buffer (f g : ℚ → ℚ) (n : ℕ) (d : ℚ) (hf : IsSqrtLike f)
    (hn : 1 ≤ n) :
    (analyzeAudio f g (List.replicate n 0) 44100 d).energy = 0 ∧
      calculateChroma g (List.replicate n 0) 44100 = List.replicate 12 0 ∧
      (analyzeAudio f g (List.replicate n 0) 44100 d).key = "C" ∧
      (analyzeAudio f g (List.replicate n 0) 44100 d).mode = Mode.major ∧
      (analyzeAudio f g (List.replicate n 0) 44100 d).confidence = 1/2 := by
  have hchroma := calculateChroma_replicate_zero g n 44100
  have hrms := rmsEnergy_replicate_zero hf n
  have htempo := detectTempo_replicate_zero hf n 44100
  refine ⟨?_, hchroma, ?_, ?_, ?_⟩
  · rw [analyzeAudio_energy]
    unfold calculateEnergy
    rw [hrms]
    decide
  · rw [analyzeAudio_key]
    unfold detectKey
    rw [hchroma, detectKeyFromChroma_zeroChroma]
  · rw [analyzeAudio_mode]
    unfold detectKey
    rw [hchroma, detectKeyFromChroma_zeroChroma]
  · rw [analyzeAudio_confidence, detectKey_confidence_eq, hchroma, keyConfidence_zeroChroma,
      htempo]
    unfold calculateEnergy
    rw [hrms, if_pos (by norm_num : (60:ℚ) ≤ 120 ∧ (120:ℚ) ≤ 200), if_neg (lt_irrefl 0)]
    decide

/-- C4, witness: the silent-buffer theorem applied to the one-sample silent
buffer with the concrete sqrt/log2 models. -/
theorem C4_amended_silent_buffer_witness :
    (analyzeAudio sqrtRef log2Ref (List.replicate 1 0) 44100 0).energy = 0 ∧
      calculateChroma log2Ref (List.replicate 1 0) 44100 = List.replicate 12 0 ∧
      (analyzeAudio sqrtRef log2Ref (List.replicate 1 0) 44100 0).key = "C" ∧
      (analyzeAudio sqrtRef log2Ref (List.replicate 1 0) 44100 0).mode = Mode.major ∧
      (analyzeAudio sqrtRef log2Ref (List.replicate 1 0) 44100 0).confidence = 1/2 :=
  C4_amended_silent_buffer sqrtRef log2Ref 1 0 isSqrtLike_sqrtRef (by decide)

/-- Telescoping: the sum of consecutive differences of a list is its last
element minus its head. -/
theorem zipWith_sub_tail_sum (l : List ℚ) :
    (List.zipWith (fun a b => b - a) l l.tail).sum = l.getLastD 0 - l.headD 0 := by
  have aux : ∀ (t : List ℚ) (x : ℚ),
      (List.zipWith (fun a b => b - a) (x :: t) t).sum = t.getLastD x - x := by
    intro t
    induction t with
    | nil => intro x; simp
    | cons y t' ih =>
      intro x
      rw [List.zipWith_cons_cons, List.sum_cons, ih y, List.getLastD_cons]
      ring
  cases l with
  | nil => simp
  | cons x t =>
    rw [show (x :: t).tail = t from rfl, aux t x, List.getLastD_cons]
    rfl

/-- C5, amended.  `detectTempo` takes the plain (unsorted, untrimmed) average
of all consecutive inter-onset intervals: with at least 2 onsets the result is
`clamp(60·(count − 1)/(lastOnset − firstOnset))` — since the plain mean of
consecutive differences telescopes — and with fewer than 2 onsets it is
exactly the deterministic default 120 BPM. -/
theorem C5_amended_plain_mean (f : ℚ → ℚ) (samples : List ℚ) (sampleRate : ℚ) :
    ((onsetTimes f samples sampleRate).length < 2 → detectTempo f samples sampleRate = 120) ∧
      (2 ≤ (onsetTimes f samples sampleRate).length →
        detectTempo f samples sampleRate =
          max 60 (min 200 (60 * (((onsetTimes f samples sampleRate).length : ℚ) - 1) /
            ((onsetTimes f samples sampleRate).getLastD 0 -
              (onsetTimes f samples sampleRate).headD 0)))) := by
  constructor
  · intro h
    unfold detectTempo
    dsimp only
    rw [if_pos h]
  · intro h
    unfold detectTempo
    dsimp only
    rw [if_neg (by omega)]
    rw [zipWith_sub_tail_sum]
    have hlen : (List.zipWith (fun a b => b - a) (onsetTimes f samples sampleRate)
        (onsetTimes f samples sampleRate).tail).length =
        (onsetTimes f samples sampleRate).length - 1 := by
      rw [List.length_zipWith, List.length_tail]
      omega
    rw [hlen]
    have hcast : (((onsetTimes f samples sampleRate).length - 1 : ℕ) : ℚ) =
        ((onsetTimes f samples sampleRate).length : ℚ) - 1 := by
      have : 1 ≤ (onsetTimes f samples sampleRate).length := by omega
      push_cast [this]
      ring
    rw [hcast, div_div_eq_mul_div]

/-- C5, witness: the amended tempo rule instantiated on the concrete buffer
with onsets at 0.1, 0.3, 0.5, 0.7, 1.6 s. -/
theorem C5_amended_plain_mean_witness :
    detectTempo sqrtRef cex5buf 10 =
      max 60 (min 200 (60 * (((onsetTimes sqrtRef cex5buf 10).length : ℚ) - 1) /
        ((onsetTimes sqrtRef cex5buf 10).getLastD 0 - (onsetTimes sqrtRef cex5buf 10).headD 0))) :=
  (C5_amended_plain_mean sqrtRef cex5buf 10).2 (by decide)

/-- A chunk lying inside the first `N` samples depends only on the `N`-prefix. -/
theorem chunk_of_take (s : List ℚ) (N a b : ℕ) (hab : a + b ≤ N) :
    (s.drop a).take b = ((s.take N).drop a).take b := by
  rw [List.drop_take, List.take_take, min_eq_left (by omega)]

/-- Two lists with equal `N`-prefixes are either both at least `N` long or
outright equal. -/
theorem take_eq_cases {s₁ s₂ : List ℚ} {N : ℕ} (h : s₁.take N = s₂.take N) :
    (N ≤ s₁.length ∧ N ≤ s₂.length) ∨ s₁ = s₂ := by
  have hlen := congrArg List.length h
  rw [List.length_take, List.length_take] at hlen
  rcases le_or_lt N s₁.length with h₁ | h₁
  · left
    exact ⟨h₁, by omega⟩
  · right
    have h₂ : s₂.length < N := by omega
    rwa [List.take_of_length_le h₁.le, List.take_of_length_le h₂.le] at h

/-- `calculateChroma` depends only on the first 20 × 4096 = 81920 samples. -/
theorem calculateChroma_take (g : ℚ → ℚ) {s₁ s₂ : List ℚ} (sr : ℚ)
    (h : s₁.take 81920 = s₂.take 81920) :
    calculateChroma g s₁ sr = calculateChroma g s₂ sr := by
  rcases take_eq_cases h with ⟨h₁, h₂⟩ | rfl
  · unfold calculateChroma
    dsimp only
    have hn₁ : min 20 (s₁.length / 4096) = 20 := min_eq_left (by omega)
    have hn₂ : min 20 (s₂.length / 4096) = 20 := min_eq_left (by omega)
    rw [hn₁, hn₂]
    have hfold : (List.range 20).foldl
        (fun chroma i =>
          let chunk := (s₁.drop (i * 4096)).take 4096
          let pitch := detectPitch chunk sr
          if 80 < pitch ∧ pitch < 2000 then
            let midiNote := 12 * g (pitch / 440) + 69
            let chromaClass := jsRem (jsRound midiNote) 12
            if 0 ≤ chromaClass then chromaAdd chroma chromaClass.toNat else chroma
          else chroma) (List.replicate 12 0) =
        (List.range 20).foldl
        (fun chroma i =>
          let chunk := (s₂.drop (i * 4096)).take 4096
          let pitch := detectPitch chunk sr
          if 80 < pitch ∧ pitch < 2000 then
            let midiNote := 12 * g (pitch / 440) + 69
            let chromaClass := jsRem (jsRound midiNote) 12
            if 0 ≤ chromaClass then chromaAdd chroma chromaClass.toNat else chroma
          else chroma) (List.replicate 12 0) := by
      refine List.foldl_ext _ _ _ ?_
      intro a i hi
      have hib : i * 4096 + 4096 ≤ 81920 := by
        have : i < 20 := List.mem_range.mp hi
        omega
      have hchunk : (s₁.drop (i * 4096)).take 4096 = (s₂.drop (i * 4096)).take 4096 := by
        rw [chunk_of_take s₁ 81920 _ _ hib, chunk_of_take s₂ 81920 _ _ hib, h]
      dsimp only
      rw [hchunk]
    rw [hfold]
  · rfl

/-- With a nonpositive chunk size (sample rate below 10) the tempo is the 120
fallback for every buffer: each chunk slice is empty, the envelope is all
zeros, and no onset survives the strict comparisons. -/
theorem detectTempo_cs_nonpos (f : ℚ → ℚ) (s : List ℚ) (sr : ℚ)
    (hcs : tempoChunkSize sr ≤ 0) : detectTempo f s sr = 120 := by
  have hz : (tempoChunkSize sr).toNat = 0 := by omega
  have henv : tempoEnvelope f s sr =
      List.replicate (tempoMaxChunks s.length (tempoChunkSize sr)) 0 := by
    unfold tempoEnvelope
    dsimp only
    refine List.eq_replicate_iff.mpr ⟨by simp, ?_⟩
    intro b hb
    obtain ⟨i, _, rfl⟩ := List.mem_map.mp hb
    rw [hz]
    simp [rmsEnergy]
  unfold detectTempo
  dsimp only
  rw [show onsetTimes f s sr = [] from by
    unfold onsetTimes
    rw [henv, findPeaks_replicate_zero]]
  rfl

/-- `detectTempo` depends only on the first `100 * floor(0.1 * sampleRate)`
samples. -/
theorem detectTempo_take (f : ℚ → ℚ) {s₁ s₂ : List ℚ} (sr : ℚ)
    (h : s₁.take (100 * (tempoChunkSize sr).toNat) =
      s₂.take (100 * (tempoChunkSize sr).toNat)) :
    detectTempo f s₁ sr = detectTempo f s₂ sr := by
  rcases le_or_lt (tempoChunkSize sr) 0 with hcs | hcs
  · rw [detectTempo_cs_nonpos f s₁ sr hcs, detectTempo_cs_nonpos f s₂ sr hcs]
  · rcases take_eq_cases h with ⟨h₁, h₂⟩ | rfl
    · have hpos : 0 < (tempoChunkSize sr).toNat := by omega
      have henv : tempoEnvelope f s₁ sr = tempoEnvelope f s₂ sr := by
        unfold tempoEnvelope tempoMaxChunks
        dsimp only
        rw [if_neg (by omega), if_neg (by omega)]
        have hm₁ : min 100 (s₁.length / (tempoChunkSize sr).toNat) = 100 :=
          min_eq_left ((Nat.le_div_iff_mul_le hpos).mpr (by omega))
        have hm₂ : min 100 (s₂.length / (tempoChunkSize sr).toNat) = 100 :=
          min_eq_left ((Nat.le_div_iff_mul_le hpos).mpr (by omega))
        rw [hm₁, hm₂]
        refine List.map_congr_left ?_
        intro i hi
        have hib : i * (tempoChunkSize sr).toNat + (tempoChunkSize sr).toNat ≤
            100 * (tempoChunkSize sr).toNat := by
          have h20 : i < 100 := List.mem_range.mp hi
          calc i * (tempoChunkSize sr).toNat + (tempoChunkSize sr).toNat
              = (i + 1) * (tempoChunkSize sr).toNat := by ring
          _ ≤ 100 * (tempoChunkSize sr).toNat := Nat.mul_le_mul_right _ (by omega)
        congr 1
        rw [chunk_of_take s₁ _ _ _ hib, chunk_of_take s₂ _ _ _ hib, h]
      have hons : onsetTimes f s₁ sr = onsetTimes f s₂ sr := congrArg findPeaks henv
      unfold detectTempo
      rw [hons]
    · rfl

/-- C9: the detected key and mode depend only on the first 81920 samples, and
the detected tempo only on the first `100 * floor(0.1 * sampleRate)` samples:
two buffers agreeing on those prefixes analyze to the same key, mode and
tempo whatever their contents afterwards (and whatever durations are passed). -/
theorem C9_prefix_determines_key_and_tempo (f g : ℚ → ℚ) (s₁ s₂ : List ℚ) (sr d₁ d₂ : ℚ)
    (hkey : s₁.take 81920 = s₂.take 81920)
    (htempo : s₁.take (100 * (tempoChunkSize sr).toNat) =
      s₂.take (100 * (tempoChunkSize sr).toNat)) :
    (analyzeAudio f g s₁ sr d₁).key = (analyzeAudio f g s₂ sr d₂).key ∧
      (analyzeAudio f g s₁ sr d₁).mode = (analyzeAudio f g s₂ sr d₂).mode ∧
      (analyzeAudio f g s₁ sr d₁).tempo = (analyzeAudio f g s₂ sr d₂).tempo := by
  have hchroma := calculateChroma_take g sr hkey
  have htmp := detectTempo_take f sr htempo
  refine ⟨?_, ?_, ?_⟩
  · rw [analyzeAudio_key, analyzeAudio_key]
    unfold detectKey
    rw [hchroma]
  · rw [analyzeAudio_mode, analyzeAudio_mode]
    unfold detectKey
    rw [hchroma]
  · rw [analyzeAudio_tempo, analyzeAudio_tempo, htmp]

/-! ## The key-classifier scan: running maximum and second maximum -/

theorem scanStep_eq (st : KeySt) (cand : (ℕ × Mode) × ℚ) :
    scanStep st cand =
      if st.bestScore < cand.2 then ⟨cand.1.1, cand.1.2, cand.2, st.bestScore⟩
      else if st.secondBest < cand.2 then { st with secondBest := cand.2 } else st := rfl

theorem listMaxD_cons (d y : ℚ) (t : List ℚ) : listMaxD d (y :: t) = listMaxD (max d y) t := rfl

theorem listMaxD_append_one (d : ℚ) (l : List ℚ) (x : ℚ) :
    listMaxD d (l ++ [x]) = max (listMaxD d l) x := by
  unfold listMaxD
  rw [List.foldl_append, List.foldl_cons, List.foldl_nil]

theorem le_listMaxD_self (d : ℚ) (l : List ℚ) : d ≤ listMaxD d l := by
  induction l generalizing d with
  | nil => exact le_rfl
  | cons y t ih => exact le_trans (le_max_left d y) (ih (max d y))

theorem le_listMaxD_of_mem {x : ℚ} {l : List ℚ} (d : ℚ) (h : x ∈ l) : x ≤ listMaxD d l := by
  induction l generalizing d with
  | nil => cases h
  | cons y t ih =>
    rw [listMaxD_cons]
    rcases List.mem_cons.mp h with rfl | h'
    · exact le_trans (le_max_right d x) (le_listMaxD_self (max d x) t)
    · exact ih _ h'

theorem listMaxD_le {l : List ℚ} {c : ℚ} (d : ℚ) (h : ∀ x ∈ l, x ≤ c) (hd : d ≤ c) :
    listMaxD d l ≤ c := by
  induction l generalizing d with
  | nil => exact hd
  | cons y t ih =>
    rw [listMaxD_cons]
    exact ih _ (fun x hx => h x (List.mem_cons_of_mem y hx))
      (max_le hd (h y (List.mem_cons_self y t)))

theorem listMaxD_lt {l : List ℚ} {c : ℚ} (d : ℚ) (h : ∀ x ∈ l, x < c) (hd : d < c) :
    listMaxD d l < c := by
  induction l generalizing d with
  | nil => exact hd
  | cons y t ih =>
    rw [listMaxD_cons]
    exact ih _ (fun x hx => h x (List.mem_cons_of_mem y hx))
      (max_lt hd (h y (List.mem_cons_self y t)))

theorem listMaxD_eq_or_mem (d : ℚ) (l : List ℚ) : listMaxD d l = d ∨ listMaxD d l ∈ l := by
  induction l generalizing d with
  | nil => exact Or.inl rfl
  | cons y t ih =>
    rw [listMaxD_cons]
    rcases ih (max d y) with h | h
    · rcases max_choice d y with h' | h'
      · exact Or.inl (by rw [h, h'])
      · refine Or.inr ?_
        rw [h, h']
        exact List.mem_cons_self y t
    · exact Or.inr (List.mem_cons_of_mem y h)

/-- After the scan processes a candidate list (all scores nonnegative, as the
correlations of a nonnegative chroma are), its best score is the running
maximum of the scores and its second-best score is the true second maximum:
both are determined by the multiset of scores alone. -/
theorem scanFold_top2 (l : List ((ℕ × Mode) × ℚ)) (h : ∀ x ∈ l, 0 ≤ x.2) :
    (l.foldl scanStep scanInit).bestScore = listMaxD (-1) (l.map Prod.snd) ∧
      (l.foldl scanStep scanInit).secondBest = secondMaxD (l.map Prod.snd) := by
  induction l using List.reverseRecOn with
  | nil => exact ⟨rfl, rfl⟩
  | append_singleton t x ih =>
    have hx : (0:ℚ) ≤ x.2 := h x (List.mem_append_right t (List.mem_cons_self x []))
    obtain ⟨hB, hS⟩ := ih (fun y hy => h y (List.mem_append_left _ hy))
    rw [List.foldl_append, List.foldl_cons, List.foldl_nil, List.map_append]
    simp only [List.map_cons, List.map_nil]
    rcases lt_or_le (listMaxD (-1) (t.map Prod.snd)) x.2 with hcmp | hcmp
    · have hnotmem : x.2 ∉ t.map Prod.snd := fun hmem =>
        absurd (le_listMaxD_of_mem (-1) hmem) (not_le.mpr hcmp)
      have hmax : listMaxD (-1) (t.map Prod.snd ++ [x.2]) = x.2 := by
        rw [listMaxD_append_one, max_eq_right hcmp.le]
      have hsecond : secondMaxD (t.map Prod.snd ++ [x.2]) = listMaxD (-1) (t.map Prod.snd) := by
        unfold secondMaxD
        rw [hmax, List.erase_append_right _ hnotmem, List.erase_cons_head, List.append_nil]
      have hstep : scanStep (t.foldl scanStep scanInit) x =
          ⟨x.1.1, x.1.2, x.2, (t.foldl scanStep scanInit).bestScore⟩ := by
        rw [scanStep_eq, if_pos (by rw [hB]; exact hcmp)]
      rw [hstep, hmax, hsecond]
      exact ⟨rfl, hB⟩
    · have hvne : listMaxD (-1) (t.map Prod.snd) ∈ t.map Prod.snd := by
        rcases listMaxD_eq_or_mem (-1) (t.map Prod.snd) with h' | h'
        · exfalso
          rw [h'] at hcmp
          linarith
        · exact h'
      have hmax : listMaxD (-1) (t.map Prod.snd ++ [x.2]) = listMaxD (-1) (t.map Prod.snd) := by
        rw [listMaxD_append_one, max_eq_left hcmp]
      have hsecond : secondMaxD (t.map Prod.snd ++ [x.2]) = max (secondMaxD (t.map Prod.snd)) x.2 := by
        unfold secondMaxD
        rw [hmax, List.erase_append_left _ hvne, listMaxD_append_one]
      rw [hmax, hsecond]
      have hc1 : ¬ (t.foldl scanStep scanInit).bestScore < x.2 := by
        rw [hB]
        exact not_lt.mpr hcmp
      rcases lt_or_le (t.foldl scanStep scanInit).secondBest x.2 with hc2 | hc2
      · have hstep : scanStep (t.foldl scanStep scanInit) x =
            { t.foldl scanStep scanInit with secondBest := x.2 } := by
          rw [scanStep_eq, if_neg hc1, if_pos hc2]
        rw [hstep]
        refine ⟨hB, ?_⟩
        rw [hS] at hc2
        exact (max_eq_right hc2.le).symm
      · have hstep : scanStep (t.foldl scanStep scanInit) x = t.foldl scanStep scanInit := by
          rw [scanStep_eq, if_neg hc1, if_neg (not_lt.mpr hc2)]
        rw [hstep]
        refine ⟨hB, ?_⟩
        rw [hS] at hc2 ⊢
        exact (max_eq_left hc2).symm

/-- Candidates whose scores never exceed the current best leave the best
fields of the scan state unchanged. -/
theorem scanFold_noDisplace (l : List ((ℕ × Mode) × ℚ)) (st : KeySt)
    (h : ∀ x ∈ l, x.2 ≤ st.bestScore) :
    (l.foldl scanStep st).bestKey = st.bestKey ∧
      (l.foldl scanStep st).bestMode = st.bestMode ∧
      (l.foldl scanStep st).bestScore = st.bestScore := by
  induction l generalizing st with
  | nil => exact ⟨rfl, rfl, rfl⟩
  | cons x t ih =>
    rw [List.foldl_cons]
    have hx := h x (List.mem_cons_self x t)
    have hfields : (scanStep st x).bestKey = st.bestKey ∧
        (scanStep st x).bestMode = st.bestMode ∧
        (scanStep st x).bestScore = st.bestScore := by
      rw [scanStep_eq, if_neg (not_lt.mpr hx)]
      by_cases h2 : st.secondBest < x.2
      · rw [if_pos h2]
        exact ⟨rfl, rfl, rfl⟩
      · rw [if_neg h2]
        exact ⟨rfl, rfl, rfl⟩
    obtain ⟨h1, h2, h3⟩ := hfields
    obtain ⟨g1, g2, g3⟩ := ih (scanStep st x) (fun y hy => by
      rw [h3]
      exact h y (List.mem_cons_of_mem x hy))
    exact ⟨g1.trans h1, g2.trans h2, g3.trans h3⟩

/-- If one candidate's score is the maximum of the whole list and every
candidate attaining that score carries the same identifier, the scan returns
that identifier with the maximal score as best score. -/
theorem scanFold_arg (a : ℕ × Mode) (v : ℚ) :
    ∀ l : List ((ℕ × Mode) × ℚ), (a, v) ∈ l → (∀ x ∈ l, x.2 ≤ v) →
      (∀ x ∈ l, x.2 = v → x.1 = a) → (∀ x ∈ l, 0 ≤ x.2) →
      (l.foldl scanStep scanInit).bestKey = a.1 ∧
        (l.foldl scanStep scanInit).bestMode = a.2 ∧
        (l.foldl scanStep scanInit).bestScore = v := by
  intro l
  induction l using List.reverseRecOn with
  | nil =>
    intro hmem _ _ _
    cases hmem
  | append_singleton t x ih =>
    intro hmem hmax huni hpos
    have hposT : ∀ y ∈ t, 0 ≤ y.2 := fun y hy => hpos y (List.mem_append_left _ hy)
    obtain ⟨hB, -⟩ := scanFold_top2 t hposT
    have hv0 : 0 ≤ v := hpos (a, v) hmem
    rw [List.foldl_append, List.foldl_cons, List.foldl_nil]
    by_cases hc : (t.foldl scanStep scanInit).bestScore < x.2
    · have hxv : x = (a, v) := by
        rcases List.mem_append.mp hmem with hmem' | hmem'
        · exfalso
          have hvM : v ≤ listMaxD (-1) (t.map Prod.snd) :=
            le_listMaxD_of_mem (-1) (List.mem_map_of_mem Prod.snd hmem')
          have hxle : x.2 ≤ v := hmax x (List.mem_append_right t (List.mem_cons_self x []))
          rw [hB] at hc
          linarith
        · exact (List.mem_singleton.mp hmem').symm
      rw [scanStep_eq, if_pos hc, hxv]
      exact ⟨rfl, rfl, rfl⟩
    · have hmemT : (a, v) ∈ t := by
        rcases List.mem_append.mp hmem with hmem' | hmem'
        · exact hmem'
        · have hx : x = (a, v) := (List.mem_singleton.mp hmem').symm
          have hvB : v ≤ listMaxD (-1) (t.map Prod.snd) := by
            have hle : x.2 ≤ (t.foldl scanStep scanInit).bestScore := not_lt.mp hc
            rw [hB, hx] at hle
            exact hle
          have hBv : listMaxD (-1) (t.map Prod.snd) ≤ v := by
            refine listMaxD_le (-1) ?_ (by linarith)
            intro y hy
            obtain ⟨c, hcmem, rfl⟩ := List.mem_map.mp hy
            exact hmax c (List.mem_append_left _ hcmem)
          have hBeq : listMaxD (-1) (t.map Prod.snd) = v := le_antisymm hBv hvB
          have htne : listMaxD (-1) (t.map Prod.snd) ∈ t.map Prod.snd := by
            rcases listMaxD_eq_or_mem (-1) (t.map Prod.snd) with h' | h'
            · exfalso
              rw [h'] at hBeq
              linarith
            · exact h'
          obtain ⟨c, hcmem, hcval⟩ := List.mem_map.mp htne
          have hcv : c.2 = v := by rw [hcval, hBeq]
          have hca : c.1 = a := huni c (List.mem_append_left _ hcmem) hcv
          obtain ⟨c1, c2⟩ := c
          simp only at hca hcv
          rw [← hca, ← hcv]
          exact hcmem
      obtain ⟨g1, g2, g3⟩ := ih hmemT (fun y hy => hmax y (List.mem_append_left _ hy))
        (fun y hy => huni y (List.mem_append_left _ hy)) hposT
      have hfields : (scanStep (t.foldl scanStep scanInit) x).bestKey =
          (t.foldl scanStep scanInit).bestKey ∧
          (scanStep (t.foldl scanStep scanInit) x).bestMode =
            (t.foldl scanStep scanInit).bestMode ∧
          (scanStep (t.foldl scanStep scanInit) x).bestScore =
            (t.foldl scanStep scanInit).bestScore := by
        rw [scanStep_eq, if_neg hc]
        by_cases h2 : (t.foldl scanStep scanInit).secondBest < x.2
        · rw [if_pos h2]
          exact ⟨rfl, rfl, rfl⟩
        · rw [if_neg h2]
          exact ⟨rfl, rfl, rfl⟩
      obtain ⟨f1, f2, f3⟩ := hfields
      exact ⟨f1.trans g1, f2.trans g2, f3.trans g3⟩

/-- The first candidate (in scan order) whose score is never strictly
exceeded afterwards, and which strictly exceeds everything before it, wins
the scan: candidates are decided by position when scores tie. -/
theorem scanFold_first (l₁ l₂ : List ((ℕ × Mode) × ℚ)) (a : ℕ × Mode) (v : ℚ)
    (h1 : ∀ x ∈ l₁, x.2 < v) (h2 : ∀ x ∈ l₂, x.2 ≤ v) (hv : 0 ≤ v)
    (hp1 : ∀ x ∈ l₁, 0 ≤ x.2) :
    ((l₁ ++ (a, v) :: l₂).foldl scanStep scanInit).bestKey = a.1 ∧
      ((l₁ ++ (a, v) :: l₂).foldl scanStep scanInit).bestMode = a.2 ∧
      ((l₁ ++ (a, v) :: l₂).foldl scanStep scanInit).bestScore = v := by
  rw [List.foldl_append, List.foldl_cons]
  obtain ⟨hB, -⟩ := scanFold_top2 l₁ hp1
  have hlt : (l₁.foldl scanStep scanInit).bestScore < v := by
    rw [hB]
    refine listMaxD_lt (-1) ?_ (by linarith)
    intro y hy
    obtain ⟨c, hcmem, rfl⟩ := List.mem_map.mp hy
    exact h1 c hcmem
  have hstep : scanStep (l₁.foldl scanStep scanInit) (a, v) =
      ⟨a.1, a.2, v, (l₁.foldl scanStep scanInit).bestScore⟩ := by
    rw [scanStep_eq, if_pos hlt]
  rw [hstep]
  exact scanFold_noDisplace l₂ _ h2

/-! ## Correlation and candidate-list lemmas -/

theorem getD_nonneg {l : List ℚ} (h : ∀ x ∈ l, 0 ≤ x) (k : ℕ) : 0 ≤ l.getD k 0 := by
  rcases lt_or_le k l.length with hk | hk
  · rw [List.getD_eq_getElem _ _ hk]
    exact h _ (List.getElem_mem hk)
  · rw [List.getD_eq_default _ _ hk]

theorem majorProfile_nonneg : ∀ x ∈ majorProfile, (0:ℚ) ≤ x := by decide

theorem minorProfile_nonneg : ∀ x ∈ minorProfile, (0:ℚ) ≤ x := by decide

theorem profileOf_nonneg (m : Mode) : ∀ x ∈ profileOf m, (0:ℚ) ≤ x := by
  cases m
  · exact majorProfile_nonneg
  · exact minorProfile_nonneg

theorem correlate_nonneg {c p : List ℚ} (hc : ∀ x ∈ c, 0 ≤ x) (hp : ∀ x ∈ p, 0 ≤ x) (s : ℕ) :
    0 ≤ correlate c p s :=
  Finset.sum_nonneg fun i _ => mul_nonneg (getD_nonneg hc i) (getD_nonneg hp _)

theorem correlate_shift_mod (c p : List ℚ) (s : ℕ) :
    correlate c p s = correlate c p (s % 12) := by
  unfold correlate
  refine Finset.sum_congr rfl fun i _ => ?_
  have : (i + s) % 12 = (i + s % 12) % 12 := by omega
  rw [this]

theorem shiftBins_getD (n : ℕ) (c : List ℚ) (i : ℕ) (hi : i < 12) :
    (shiftBins n c).getD i 0 = c.getD ((i + n) % 12) 0 := by
  unfold shiftBins
  rw [List.getD_eq_getElem _ _ (by simpa using hi), List.getElem_map, List.getElem_range]

theorem shiftBins_nonneg (n : ℕ) {c : List ℚ} (hc : ∀ x ∈ c, 0 ≤ x) :
    ∀ x ∈ shiftBins n c, 0 ≤ x := by
  intro x hx
  obtain ⟨i, -, rfl⟩ := List.mem_map.mp hx
  exact getD_nonneg hc _

/-- Sanity check that `rotateChromaUp` is the upward rotation the claim
describes: the content of bin `j` of the input appears at bin `(j + n) % 12`
of the result. -/
theorem rotateChromaUp_spec (n : ℕ) (hn : n ≤ 12) (c : List ℚ) (j : ℕ) (hj : j < 12) :
    (rotateChromaUp n c).getD ((j + n) % 12) 0 = c.getD j 0 := by
  unfold rotateChromaUp
  rw [shiftBins_getD (12 - n) c ((j + n) % 12) (Nat.mod_lt _ (by norm_num))]
  have hidx : ((j + n) % 12 + (12 - n)) % 12 = j := by omega
  rw [hidx]

/-- Reshuffling the chroma bins by `n` turns the correlation at shift `s`
into the original correlation at shift `s + (12 - n)`: the score table is a
rotation. -/
theorem correlate_rotate (c p : List ℚ) (n : ℕ) (hn : n ≤ 12) (s : ℕ) :
    correlate (shiftBins n c) p s = correlate c p (s + (12 - n)) := by
  unfold correlate
  rw [Finset.sum_congr rfl fun i hi => by
    rw [shiftBins_getD n c i (Finset.mem_range.mp hi)]]
  refine Finset.sum_nbij' (fun i => (i + n) % 12) (fun k => (k + (12 - n)) % 12)
    ?_ ?_ ?_ ?_ ?_
  · intro i _
    exact Finset.mem_range.mpr (Nat.mod_lt _ (by norm_num))
  · intro k _
    exact Finset.mem_range.mpr (Nat.mod_lt _ (by norm_num))
  · intro i hi
    have := Finset.mem_range.mp hi
    dsimp only
    omega
  · intro k hk
    have := Finset.mem_range.mp hk
    dsimp only
    omega
  · intro i hi
    have hi' := Finset.mem_range.mp hi
    have hidx : ((i + n) % 12 + (s + (12 - n))) % 12 = (i + s) % 12 := by omega
    rw [hidx]

theorem cands_mem {c : List ℚ} {x : (ℕ × Mode) × ℚ} :
    x ∈ cands c ↔ ∃ s, s < 12 ∧
      (x = ((s, Mode.major), correlate c majorProfile s) ∨
        x = ((s, Mode.minor), correlate c minorProfile s)) := by
  unfold cands
  simp only [List.mem_flatMap, List.mem_range, List.mem_cons, List.mem_singleton,
    List.not_mem_nil, or_false]

theorem cands_val {c : List ℚ} {x : (ℕ × Mode) × ℚ} (hx : x ∈ cands c) :
    x.1.1 < 12 ∧ x.2 = correlate c (profileOf x.1.2) x.1.1 := by
  obtain ⟨s, hs, h | h⟩ := cands_mem.mp hx <;> subst h <;> exact ⟨hs, rfl⟩

theorem cands_mem_mk (c : List ℚ) (s : ℕ) (m : Mode) (hs : s < 12) :
    ((s, m), correlate c (profileOf m) s) ∈ cands c := by
  refine cands_mem.mpr ⟨s, hs, ?_⟩
  cases m
  · exact Or.inl rfl
  · exact Or.inr rfl

theorem cands_nonneg {c : List ℚ} (hc : ∀ x ∈ c, 0 ≤ x) :
    ∀ x ∈ cands c, 0 ≤ x.2 := by
  intro x hx
  obtain ⟨-, hval⟩ := cands_val hx
  rw [hval]
  exact correlate_nonneg hc (profileOf_nonneg x.1.2) _

theorem cands_map_snd (c : List ℚ) :
    (cands c).map Prod.snd = (List.range 12).flatMap
      (fun s => [correlate c majorProfile s, correlate c minorProfile s]) := by
  unfold cands
  simp [List.map_flatMap]

/-- The multiset of the 24 candidate scores of a rotated chroma is a
permutation of the original one. -/
theorem vals_rotate_perm (c : List ℚ) (n : ℕ) (hn : n ≤ 12) :
    ((cands (shiftBins n c)).map Prod.snd).Perm ((cands c).map Prod.snd) := by
  rw [cands_map_snd, cands_map_snd]
  have hfun : (fun s => [correlate (shiftBins n c) majorProfile s,
      correlate (shiftBins n c) minorProfile s]) =
      (fun s => [correlate c majorProfile ((s + (12 - n)) % 12),
        correlate c minorProfile ((s + (12 - n)) % 12)]) := by
    funext s
    rw [correlate_rotate c majorProfile n hn s, correlate_rotate c minorProfile n hn s,
      correlate_shift_mod c majorProfile (s + (12 - n)),
      correlate_shift_mod c minorProfile (s + (12 - n))]
  rw [hfun, ← List.flatMap_map (fun s => (s + (12 - n)) % 12)
    (fun u => [correlate c majorProfile u, correlate c minorProfile u]) (List.range 12)]
  have hperm : (((List.range 12).map fun s => (s + (12 - n)) % 12)).Perm (List.range 12) := by
    have hdec : ∀ k, k ≤ 12 →
        (((List.range 12).map fun s => (s + k) % 12)).Perm (List.range 12) := by decide
    exact hdec (12 - n) (by omega)
  exact hperm.flatMap_right _

theorem listMaxD_perm (d : ℚ) {l₁ l₂ : List ℚ} (h : l₁.Perm l₂) :
    listMaxD d l₁ = listMaxD d l₂ := h.foldl_eq d

theorem secondMaxD_perm {l₁ l₂ : List ℚ} (h : l₁.Perm l₂) : secondMaxD l₁ = secondMaxD l₂ := by
  unfold secondMaxD
  rw [listMaxD_perm (-1) h]
  exact listMaxD_perm (-1) (h.erase _)

/-- C9, witness: two 441001-sample buffers that agree on the first 441000
samples (all silent) and differ in the final sample analyze to the same key,
mode and tempo. -/
theorem C9_prefix_determines_key_and_tempo_witness :
    (analyzeAudio sqrtRef log2Ref (List.replicate 441000 0 ++ [1]) 44100 1).key =
      (analyzeAudio sqrtRef log2Ref (List.replicate 441000 0 ++ [2]) 44100 2).key ∧
      (analyzeAudio sqrtRef log2Ref (List.replicate 441000 0 ++ [1]) 44100 1).mode =
        (analyzeAudio sqrtRef log2Ref (List.replicate 441000 0 ++ [2]) 44100 2).mode ∧
      (analyzeAudio sqrtRef log2Ref (List.replicate 441000 0 ++ [1]) 44100 1).tempo =
        (analyzeAudio sqrtRef log2Ref (List.replicate 441000 0 ++ [2]) 44100 2).tempo := by
  have hN : 100 * (tempoChunkSize 44100).toNat = 441000 := by decide
  refine C9_prefix_determines_key_and_tempo sqrtRef log2Ref _ _ 44100 1 2 ?_ ?_
  · rw [List.take_append_eq_append_take, List.take_append_eq_append_take,
      List.take_replicate, List.length_replicate]
    rw [show 81920 - 441000 = 0 from by norm_num, List.take_zero, List.take_zero]
  · rw [hN, List.take_append_eq_append_take, List.take_append_eq_append_take,
      List.take_replicate, List.length_replicate]
    rw [show 441000 - 441000 = 0 from by norm_num, List.take_zero, List.take_zero]

/-- The effect of the bin reshuffle `shiftBins` on the scan, for a chroma
whose best candidate is a unique strict maximum: the detected shift index
moves by exactly `+n` (mod 12) under `shiftBins n`, the mode is preserved,
and the confidence is preserved exactly (best and second-best scores are
permutation invariants of the score multiset). -/
theorem detectKeyScan_shiftBins (c : List ℚ) (hlen : c.length = 12) (hnn : ∀ x ∈ c, 0 ≤ x)
    (n : ℕ) (hn : n ≤ 12) (s : ℕ) (m : Mode) (v : ℚ)
    (hmem : ((s, m), v) ∈ cands c)
    (huniq : ∀ x ∈ cands c, x.1 ≠ (s, m) → x.2 < v) :
    (detectKeyScan c).bestKey = s ∧ (detectKeyScan c).bestMode = m ∧
      (detectKeyScan (shiftBins n c)).bestKey = (s + n) % 12 ∧
      (detectKeyScan (shiftBins n c)).bestMode = m ∧
      (detectKeyFromChroma (shiftBins n c)).confidence =
        (detectKeyFromChroma c).confidence := by
  have hpos : ∀ x ∈ cands c, 0 ≤ x.2 := cands_nonneg hnn
  obtain ⟨hs12, hv⟩ := cands_val hmem
  have hv' : v = correlate c (profileOf m) s := hv
  have hs' : s < 12 := hs12
  have hmax : ∀ x ∈ cands c, x.2 ≤ v := by
    intro x hx
    by_cases hid : x.1 = (s, m)
    · obtain ⟨-, hxval⟩ := cands_val hx
      rw [hxval, hid]
      exact le_of_eq hv'.symm
    · exact (huniq x hx hid).le
  have huni : ∀ x ∈ cands c, x.2 = v → x.1 = (s, m) := by
    intro x hx hxv
    by_contra hne
    exact absurd hxv (ne_of_lt (huniq x hx hne))
  obtain ⟨ho1, ho2, ho3⟩ := scanFold_arg (s, m) v (cands c) hmem hmax huni hpos
  have hnn' : ∀ x ∈ shiftBins n c, 0 ≤ x := shiftBins_nonneg n hnn
  have hpos' : ∀ x ∈ cands (shiftBins n c), 0 ≤ x.2 := cands_nonneg hnn'
  have hkey12 : (s + n) % 12 < 12 := Nat.mod_lt _ (by norm_num)
  have hvrot : correlate (shiftBins n c) (profileOf m) ((s + n) % 12) = v := by
    rw [correlate_rotate c (profileOf m) n hn ((s + n) % 12),
      correlate_shift_mod c (profileOf m) ((s + n) % 12 + (12 - n))]
    have hidx : ((s + n) % 12 + (12 - n)) % 12 = s := by omega
    rw [hidx, ← hv']
  have hmem' : (((s + n) % 12, m), v) ∈ cands (shiftBins n c) := by
    have h := cands_mem_mk (shiftBins n c) ((s + n) % 12) m hkey12
    rw [hvrot] at h
    exact h
  have hshift : ∀ x ∈ cands (shiftBins n c),
      x.2 = correlate c (profileOf x.1.2) ((x.1.1 + (12 - n)) % 12) := by
    intro x hx
    obtain ⟨hx12, hxval⟩ := cands_val hx
    rw [hxval, correlate_rotate c (profileOf x.1.2) n hn,
      correlate_shift_mod c (profileOf x.1.2) (x.1.1 + (12 - n))]
  have hmax' : ∀ x ∈ cands (shiftBins n c), x.2 ≤ v := by
    intro x hx
    rw [hshift x hx]
    have hlt12 : (x.1.1 + (12 - n)) % 12 < 12 := Nat.mod_lt _ (by norm_num)
    exact hmax _ (cands_mem_mk c _ x.1.2 hlt12)
  have huni' : ∀ x ∈ cands (shiftBins n c), x.2 = v → x.1 = ((s + n) % 12, m) := by
    intro x hx hxv
    obtain ⟨hx12, -⟩ := cands_val hx
    have hxv' : correlate c (profileOf x.1.2) ((x.1.1 + (12 - n)) % 12) = v := by
      rw [← hshift x hx]
      exact hxv
    have hlt12 : (x.1.1 + (12 - n)) % 12 < 12 := Nat.mod_lt _ (by norm_num)
    have hid := huni _ (cands_mem_mk c _ x.1.2 hlt12) hxv'
    have ht' : (x.1.1 + (12 - n)) % 12 = s := congrArg Prod.fst hid
    have hm' : x.1.2 = m := congrArg Prod.snd hid
    have hx12' : x.1.1 < 12 := hx12
    have hx1 : x.1.1 = (s + n) % 12 := by omega
    have hpair : x.1 = (x.1.1, x.1.2) := rfl
    rw [hpair, hx1, hm']
  obtain ⟨hr1, hr2, hr3⟩ :=
    scanFold_arg ((s + n) % 12, m) v (cands (shiftBins n c)) hmem' hmax' huni' hpos'
  have hsc : detectKeyScan c = (cands c).foldl scanStep scanInit := rfl
  have hsc' : detectKeyScan (shiftBins n c) =
      (cands (shiftBins n c)).foldl scanStep scanInit := rfl
  refine ⟨by rw [hsc]; exact ho1, by rw [hsc]; exact ho2,
    by rw [hsc']; exact hr1, by rw [hsc']; exact hr2, ?_⟩
  obtain ⟨-, hS⟩ := scanFold_top2 (cands c) hpos
  obtain ⟨-, hS'⟩ := scanFold_top2 (cands (shiftBins n c)) hpos'
  have hbest_eq : (detectKeyScan (shiftBins n c)).bestScore =
      (detectKeyScan c).bestScore := by
    rw [hsc, hsc', hr3, ho3]
  have hsecond_eq : (detectKeyScan (shiftBins n c)).secondBest =
      (detectKeyScan c).secondBest := by
    rw [hsc, hsc', hS, hS']
    exact secondMaxD_perm (vals_rotate_perm c n hn)
  have hconf : ∀ ch : List ℚ,
      (detectKeyFromChroma ch).confidence = keyConfidence (detectKeyScan ch) := fun ch => rfl
  rw [hconf, hconf]
  unfold keyConfidence
  rw [hbest_eq, hsecond_eq]


/-- C6, amended.  For every nonnegative 12-bin chroma vector whose best
correlation score is a unique strict maximum over the 24 (rotation, mode)
candidates, and every n < 12: classifying the chroma rotated **upward** by n
semitones (the content of bin j moves to bin (j + n) mod 12, the reading of
the spec's "rotation symmetry" sentence) shifts the detected key index by
**-n** (mod 12), i.e. to (s + 12 - n) mod 12 — the classifier's `correlate`
reads the profile at `(i + shift) % 12`, so its reported key moves opposite
to the musical transposition — while the detected mode and the confidence
value are preserved exactly.  The uniqueness hypothesis is also necessary:
ties are broken by scan order, not by rotation, so the rotation-fixed
uniform vector obeys no shift law at all. -/
theorem C6_amended_rotation (c : List ℚ) (hlen : c.length = 12) (hnn : ∀ x ∈ c, 0 ≤ x)
    (n : ℕ) (hn : n < 12) (s : ℕ) (m : Mode) (v : ℚ)
    (hmem : ((s, m), v) ∈ cands c)
    (huniq : ∀ x ∈ cands c, x.1 ≠ (s, m) → x.2 < v) :
    (detectKeyScan c).bestKey = s ∧ (detectKeyScan c).bestMode = m ∧
      (detectKeyScan (rotateChromaUp n c)).bestKey = (s + (12 - n)) % 12 ∧
      (detectKeyScan (rotateChromaUp n c)).bestMode = m ∧
      (detectKeyFromChroma (rotateChromaUp n c)).confidence =
        (detectKeyFromChroma c).confidence :=
  detectKeyScan_shiftBins c hlen hnn (12 - n) (by omega) s m v hmem huniq

/-- C6, counterexample to the claim as stated: rotating the spike chroma
upward by one semitone (the spike moves from bin 0 to bin 1, a unique strict
maximum on both sides) moves the detected key index from 0 to 11, not to
(0 + 1) % 12 = 1 — the classifier's profile indexing inverts the direction.
Moreover the uniform chroma vector is fixed by the upward rotation and keeps
detected index 0, so on exact ties no shift law holds in either direction. -/
theorem C6_cex_upward_rotation_shifts_down :
    (detectKeyScan chromaE0).bestKey = 0 ∧
      (detectKeyScan (rotateChromaUp 1 chromaE0)).bestKey = 11 ∧
      (11 : ℕ) ≠ (0 + 1) % 12 ∧
      rotateChromaUp 1 (List.replicate 12 (1/12 : ℚ)) = List.replicate 12 (1/12 : ℚ) ∧
      (detectKeyScan (List.replicate 12 (1/12 : ℚ))).bestKey = 0 := by decide

/-- C6, witness: the chroma vector concentrated on pitch class 0 has the
unique strict maximum (major, rotation 0, score 6.35); rotating it upward by
one semitone moves the detected key index from 0 (C) to (0 + 12 - 1) % 12 =
11 (B), keeps the mode major, and keeps the confidence exactly. -/
theorem C6_amended_rotation_witness :
    (detectKeyScan chromaE0).bestKey = 0 ∧ (detectKeyScan chromaE0).bestMode = Mode.major ∧
      (detectKeyScan (rotateChromaUp 1 chromaE0)).bestKey = (0 + (12 - 1)) % 12 ∧
      (detectKeyScan (rotateChromaUp 1 chromaE0)).bestMode = Mode.major ∧
      (detectKeyFromChroma (rotateChromaUp 1 chromaE0)).confidence =
        (detectKeyFromChroma chromaE0).confidence :=
  C6_amended_rotation chromaE0 (by decide) (by decide) 1 (by decide) 0 Mode.major
    (correlate chromaE0 majorProfile 0) (by decide) (by decide)

/-- C10, amended: the classifier returns the candidate encountered first in
its fixed scan order (rotation 0 major, rotation 0 minor, rotation 1 major,
...) among those achieving the maximal score: any decomposition of the
candidate list around a candidate that strictly beats everything before it
and is never strictly beaten after it determines the result.  Hence an exact
major/minor tie yields major only when the tied major candidate comes no
later than the tied minor one; a tied minor candidate at a strictly lower
rotation index wins and yields minor. -/
theorem C10_amended_first_candidate_wins (c : List ℚ) (l₁ l₂ : List ((ℕ × Mode) × ℚ))
    (s : ℕ) (m : Mode) (v : ℚ)
    (hdec : cands c = l₁ ++ ((s, m), v) :: l₂)
    (h1 : ∀ x ∈ l₁, x.2 < v) (h2 : ∀ x ∈ l₂, x.2 ≤ v)
    (hpos : ∀ x ∈ cands c, 0 ≤ x.2) :
    (detectKeyScan c).bestKey = s ∧ (detectKeyScan c).bestMode = m ∧
      (detectKeyScan c).bestScore = v := by
  have hv : 0 ≤ v := by
    have hmem : ((s, m), v) ∈ cands c := by
      rw [hdec]
      exact List.mem_append_right _ (List.mem_cons_self _ _)
    exact hpos _ hmem
  have hp1 : ∀ x ∈ l₁, 0 ≤ x.2 := by
    intro x hx
    refine hpos x ?_
    rw [hdec]
    exact List.mem_append_left _ hx
  have hsc : detectKeyScan c = (cands c).foldl scanStep scanInit := rfl
  rw [hsc, hdec]
  exact scanFold_first l₁ l₂ (s, m) v h1 h2 hv hp1

/-- C10, witness: on `c10chroma` the tied minor candidate at rotation 0
precedes the tied major candidate at rotation 9 in scan order, so the scan
returns C minor with the tied value as best score. -/
theorem C10_amended_first_candidate_wins_witness :
    (detectKeyScan c10chroma).bestKey = 0 ∧
      (detectKeyScan c10chroma).bestMode = Mode.minor ∧
      (detectKeyScan c10chroma).bestScore = correlate c10chroma minorProfile 0 :=
  C10_amended_first_candidate_wins c10chroma ((cands c10chroma).take 1)
    ((cands c10chroma).drop 2) 0 Mode.minor (correlate c10chroma minorProfile 0)
    (by decide) (by decide) (by decide) (by decide)

end VirtuosoAudio
